import Mathlib

/-!
Verification of the mask-comparison metrics engine of `calculate_metrics.py`.

Masks (numpy 2-D `uint8` arrays) are embedded as lists of rows of natural
numbers; Python floats are embedded as exact rationals: every quantity the
code divides is an integer pixel count (or such a count divided by 255), so
the formula values are exact rationals.
-/

namespace CalcMetrics

/-- A mask: a 2-D grid, row-major, of `uint8` pixel values. -/
abbrev Mask := List (List Nat)

/-- `m.shape[0]` of a 2-D numpy array: the number of rows. -/
def shape0 (m : Mask) : Nat := m.length

/-- `m.shape[1]` of a 2-D numpy array: the length of a row. -/
def shape1 (m : Mask) : Nat := (m.headD []).length

/-- The flattened, row-major pixel list of a mask. -/
def pix (m : Mask) : List Nat := m.flatten

/-- The pixel at row `i`, column `j` (0 outside the grid). -/
def cell (m : Mask) (i j : Nat) : Nat := (m.getD i []).getD j 0

/-- The mask is a well-formed `h × w` grid. -/
def MaskWf (m : Mask) (h w : Nat) : Prop := m.length = h ∧ ∀ row ∈ m, row.length = w

/-- Every pixel value is 0 or 255 (the `{0,255}` value convention). -/
def BinaryMask (m : Mask) : Prop := ∀ row ∈ m, ∀ v ∈ row, v = 0 ∨ v = 255

/-- Every pixel value is 0. -/
def AllZero (m : Mask) : Prop := ∀ row ∈ m, ∀ v ∈ row, v = 0

instance (m : Mask) (h w : Nat) : Decidable (MaskWf m h w) :=
  inferInstanceAs (Decidable (m.length = h ∧ ∀ row ∈ m, row.length = w))

instance (m : Mask) : Decidable (BinaryMask m) :=
  inferInstanceAs (Decidable (∀ row ∈ m, ∀ v ∈ row, v = 0 ∨ v = 255))

instance (m : Mask) : Decidable (AllZero m) :=
  inferInstanceAs (Decidable (∀ row ∈ m, ∀ v ∈ row, v = 0))

/-- `np.logical_and(mask1, mask2).sum()`: the number of positions where both
masks are nonzero (numpy truthiness), for same-shape arrays. -/
def andSum (mask1 mask2 : Mask) : Nat :=
  ((pix mask1).zip (pix mask2)).countP (fun q => q.1 != 0 && q.2 != 0)

/-- `np.logical_or(mask1, mask2).sum()`: the number of positions where at
least one mask is nonzero, for same-shape arrays. -/
def orSum (mask1 mask2 : Mask) : Nat :=
  ((pix mask1).zip (pix mask2)).countP (fun q => q.1 != 0 || q.2 != 0)

/-- `m.sum()`: the sum of all pixel values. -/
def maskSum (m : Mask) : Nat := (pix m).sum

/-- `np.sum(pred == gt)`: the number of positions where the two same-shape
arrays agree. -/
def eqSum (pred gt : Mask) : Nat :=
  ((pix pred).zip (pix gt)).countP (fun q => q.1 == q.2)

/-- `calculate_iou(mask1, mask2)` (source lines 12-17). -/
def calculate_iou (mask1 mask2 : Mask) : ℚ :=
  let intersection := andSum mask1 mask2
  let union := orSum mask1 mask2
  if union ≠ 0 then (intersection : ℚ) / union else 0

/-- `calculate_precision(mask1, mask2)` (source lines 19-24). -/
def calculate_precision (mask1 mask2 : Mask) : ℚ :=
  let true_positive := andSum mask1 mask2
  let predicted_positive : ℚ := (maskSum mask2 : ℚ) / 255
  if predicted_positive ≠ 0 then (true_positive : ℚ) / predicted_positive else 0

/-- `calculate_recall(mask1, mask2)` (source lines 26-31). -/
def calculate_recall (mask1 mask2 : Mask) : ℚ :=
  let true_positive := andSum mask1 mask2
  let actual_positive : ℚ := (maskSum mask1 : ℚ) / 255
  if actual_positive ≠ 0 then (true_positive : ℚ) / actual_positive else 0

/-- `calculate_f1(precision, recall_val)` (source lines 33-36). -/
def calculate_f1 (precision recall_val : ℚ) : ℚ :=
  if precision + recall_val ≠ 0 then 2 * (precision * recall_val) / (precision + recall_val) else 0

/-- `calculate_pixel_accuracy(pred, gt)` (source lines 38-43): the equality
count divided by `pred.shape[0] * pred.shape[1]`, with no zero guard. -/
def calculate_pixel_accuracy (pred gt : Mask) : ℚ :=
  let correct_pixels := eqSum pred gt
  let total_pixels := shape0 pred * shape1 pred
  (correct_pixels : ℚ) / (total_pixels : ℚ)

/-- `calculate_dice_coefficient(mask1, mask2)` (source lines 45-51). -/
def calculate_dice_coefficient (mask1 mask2 : Mask) : ℚ :=
  let intersection := andSum mask1 mask2
  let mask1_sum : ℚ := (maskSum mask1 : ℚ) / 255
  let mask2_sum : ℚ := (maskSum mask2 : ℚ) / 255
  if mask1_sum + mask2_sum ≠ 0 then (2 * intersection : ℚ) / (mask1_sum + mask2_sum) else 1

/-- `np.maximum(m1, m2)`: pixel-wise maximum of two same-shape masks. -/
def maxMask (m1 m2 : Mask) : Mask := List.zipWith (List.zipWith max) m1 m2

/-- The combined-mask accumulation loop of `evaluate_metrics` (source lines
70-83): start from `np.zeros(img_shape)` and fold in each per-item mask
with `np.maximum`. -/
def combineMasks (h w : Nat) (masks : List Mask) : Mask :=
  masks.foldl maxMask (List.replicate h (List.replicate w 0))

/-- The metric-computation tail of `evaluate_metrics` (source lines 86-93),
taking the two already-combined masks: the returned 6-tuple
`(iou, precision, recall_val, f1, pixel_accuracy, dice)`. -/
def evaluate_metrics_core (gt_combined_mask pred_combined_mask : Mask) :
    ℚ × ℚ × ℚ × ℚ × ℚ × ℚ :=
  let iou := calculate_iou gt_combined_mask pred_combined_mask
  let precision := calculate_precision gt_combined_mask pred_combined_mask
  let recall_val := calculate_recall gt_combined_mask pred_combined_mask
  let f1 := calculate_f1 precision recall_val
  let pixel_accuracy := calculate_pixel_accuracy pred_combined_mask gt_combined_mask
  let dice := calculate_dice_coefficient gt_combined_mask pred_combined_mask
  (iou, precision, recall_val, f1, pixel_accuracy, dice)

/-! ### Rasterizer

`points_to_mask` (source lines 6-10) allocates `np.zeros(img_shape)` and
calls `cv2.fillPoly(mask, [points], 255)`. The fill rule of `cv2.fillPoly`
is library code outside this repository, so it is modelled from the spec:
a scanline/even-odd (ray-crossing) polygon fill over integer pixel
coordinates. -/

/-- Whether a point `q` is strictly above the horizontal ray through `p`. -/
def yAbove (p q : ℚ × ℚ) : Bool := decide (p.2 < q.2)

/-- Whether the edge from `a` to `b` crosses the horizontal ray going right
from `p`: the endpoints straddle the ray's height and the crossing abscissa
lies strictly right of `p` (the standard ray-casting edge test). -/
def edgeCrosses (p a b : ℚ × ℚ) : Bool :=
  (yAbove p a != yAbove p b) &&
    decide (p.1 < (b.1 - a.1) * (p.2 - a.2) / (b.2 - a.2) + a.1)

/-- The edges of the implicitly closed polygon on `pts`: consecutive pairs
plus the closing edge from the last point back to the first. -/
def polyEdges (pts : List (ℚ × ℚ)) : List ((ℚ × ℚ) × (ℚ × ℚ)) :=
  pts.zip (pts.rotate 1)

/-- Number of polygon edges crossed by the rightward ray from `p`. -/
def crossCount (pts : List (ℚ × ℚ)) (p : ℚ × ℚ) : Nat :=
  (polyEdges pts).countP (fun e => edgeCrosses p e.1 e.2)

/-- Even-odd interior test: `p` is inside when the ray crosses an odd
number of edges. -/
def insideEO (pts : List (ℚ × ℚ)) (p : ℚ × ℚ) : Bool := crossCount pts p % 2 == 1

/-- Integer polygon vertices viewed as rational points. -/
def ptsQ (pts : List (Int × Int)) : List (ℚ × ℚ) :=
  pts.map (fun q => ((q.1 : ℚ), (q.2 : ℚ)))

/-- Modelled from the spec: `points_to_mask(points, img_shape)` — what is
missing from `src/` is the fill rule of `cv2.fillPoly`. Per the spec, the
function allocates an all-zero mask of shape `(height, width)` and sets to
255 exactly the pixels of the polygon's enclosed area, using a
scanline/even-odd polygon fill rule over integer pixel coordinates; pixel
`(row r, column c)` corresponds to the point `(x = c, y = r)`. -/
def points_to_mask (points : List (Int × Int)) (img_shape : Nat × Nat) : Mask :=
  (List.range img_shape.1).map (fun r : Nat =>
    (List.range img_shape.2).map (fun c : Nat =>
      if insideEO (ptsQ points) ((c : ℚ), (r : ℚ)) then 255 else 0))

/-- The vertices all lie on one line `a·x + b·y = c` (a degenerate,
zero-area polygon). -/
def CollinearPts (pts : List (Int × Int)) : Prop :=
  ∃ a b c : Int, (a ≠ 0 ∨ b ≠ 0) ∧ ∀ q ∈ pts, a * q.1 + b * q.2 = c

/-! ### Spec-side pixel counts

The spec states the metrics in terms of counts of grid positions; these are
written as index sums over the `h × w` grid, independently of the flattened
zip/countP computations of the embedded code. -/

/-- Spec-side count of grid positions `(i, j)` satisfying a two-mask
pixel predicate. -/
def specCount2 (p : Nat → Nat → Bool) (m1 m2 : Mask) (h w : Nat) : Nat :=
  ∑ i ∈ Finset.range h, ∑ j ∈ Finset.range w,
    if p (cell m1 i j) (cell m2 i j) then 1 else 0

/-- Spec-side count of grid positions satisfying a one-mask pixel predicate. -/
def specCount1 (p : Nat → Bool) (m : Mask) (h w : Nat) : Nat :=
  ∑ i ∈ Finset.range h, ∑ j ∈ Finset.range w, if p (cell m i j) then 1 else 0

/-- `|A ∧ B|`: count of positions nonzero in both masks. -/
def specAnd (m1 m2 : Mask) (h w : Nat) : Nat :=
  specCount2 (fun x y => x != 0 && y != 0) m1 m2 h w

/-- `|A ∨ B|`: count of positions nonzero in at least one mask. -/
def specOr (m1 m2 : Mask) (h w : Nat) : Nat :=
  specCount2 (fun x y => x != 0 || y != 0) m1 m2 h w

/-- `|A|`: count of positive (nonzero) pixels of one mask. -/
def specPos (m : Mask) (h w : Nat) : Nat := specCount1 (fun x => x != 0) m h w

/-- Count of positions where the two masks agree. -/
def specEq (m1 m2 : Mask) (h w : Nat) : Nat := specCount2 (fun x y => x == y) m1 m2 h w

/-! ### Bridging lemmas: flattened countP computations vs index sums -/

theorem countP_zip_row (p : Nat → Nat → Bool) (r1 : List Nat) :
    ∀ (w : Nat) (r2 : List Nat), r1.length = w → r2.length = w →
      (r1.zip r2).countP (fun q => p q.1 q.2)
        = ∑ j ∈ Finset.range w, if p (r1.getD j 0) (r2.getD j 0) then 1 else 0 := by
  induction r1 with
  | nil =>
      intro w r2 h1 h2
      subst h1
      obtain rfl := List.eq_nil_of_length_eq_zero h2
      simp
  | cons a t1 ih =>
      intro w r2 h1 h2
      cases r2 with
      | nil => rw [← h1] at h2; simp at h2
      | cons b t2 =>
          subst h1
          simp only [List.length_cons] at h2 ⊢
          rw [List.zip_cons_cons, List.countP_cons, Finset.sum_range_succ']
          simp only [List.getD_cons_succ, List.getD_cons_zero]
          rw [ih t1.length t2 rfl (by omega)]

theorem countP_pix_zip (p : Nat → Nat → Bool) (m1 : Mask) :
    ∀ (h : Nat) (m2 : Mask) (w : Nat), MaskWf m1 h w → MaskWf m2 h w →
      ((pix m1).zip (pix m2)).countP (fun q => p q.1 q.2) = specCount2 p m1 m2 h w := by
  induction m1 with
  | nil =>
      intro h m2 w wf1 wf2
      obtain ⟨h1, -⟩ := wf1
      obtain ⟨h2, -⟩ := wf2
      subst h1
      obtain rfl := List.eq_nil_of_length_eq_zero h2
      simp [pix, specCount2]
  | cons r1 t1 ih =>
      intro h m2 w wf1 wf2
      obtain ⟨h1, hr1⟩ := wf1
      cases m2 with
      | nil =>
          obtain ⟨h2, -⟩ := wf2
          rw [← h1] at h2; simp at h2
      | cons r2 t2 =>
          obtain ⟨h2, hr2⟩ := wf2
          subst h1
          simp only [List.length_cons] at h2
          have hlen1 : r1.length = w := hr1 r1 (List.mem_cons_self r1 t1)
          have hlen2 : r2.length = w := hr2 r2 (List.mem_cons_self r2 t2)
          have hpix1 : pix (r1 :: t1) = r1 ++ pix t1 := by simp [pix]
          have hpix2 : pix (r2 :: t2) = r2 ++ pix t2 := by simp [pix]
          rw [hpix1, hpix2, List.zip_append (by rw [hlen1, hlen2]), List.countP_append]
          rw [countP_zip_row p r1 w r2 hlen1 hlen2]
          rw [ih t1.length t2 w ⟨rfl, fun r hr => hr1 r (List.mem_cons_of_mem _ hr)⟩
              ⟨by omega, fun r hr => hr2 r (List.mem_cons_of_mem _ hr)⟩]
          simp only [specCount2, List.length_cons]
          rw [Finset.sum_range_succ']
          simp only [cell, List.getD_cons_succ, List.getD_cons_zero]
          omega

theorem countP_row1 (p : Nat → Bool) (r : List Nat) :
    ∀ (w : Nat), r.length = w →
      r.countP p = ∑ j ∈ Finset.range w, if p (r.getD j 0) then 1 else 0 := by
  induction r with
  | nil =>
      intro w h1
      subst h1
      simp
  | cons a t ih =>
      intro w h1
      subst h1
      simp only [List.length_cons]
      rw [List.countP_cons, Finset.sum_range_succ']
      simp only [List.getD_cons_succ, List.getD_cons_zero]
      rw [ih t.length rfl]

theorem countP_pix1 (p : Nat → Bool) (m : Mask) :
    ∀ (h w : Nat), MaskWf m h w → (pix m).countP p = specCount1 p m h w := by
  induction m with
  | nil =>
      intro h w wf
      obtain ⟨h1, -⟩ := wf
      subst h1
      simp [pix, specCount1]
  | cons r1 t1 ih =>
      intro h w wf
      obtain ⟨h1, hr1⟩ := wf
      subst h1
      have hlen1 : r1.length = w := hr1 r1 (List.mem_cons_self r1 t1)
      have hpix1 : pix (r1 :: t1) = r1 ++ pix t1 := by simp [pix]
      rw [hpix1, List.countP_append, countP_row1 p r1 w hlen1]
      rw [ih t1.length w ⟨rfl, fun r hr => hr1 r (List.mem_cons_of_mem _ hr)⟩]
      simp only [specCount1, List.length_cons]
      rw [Finset.sum_range_succ']
      simp only [cell, List.getD_cons_succ, List.getD_cons_zero]
      omega

theorem pix_length (m : Mask) :
    ∀ (h w : Nat), MaskWf m h w → (pix m).length = h * w := by
  induction m with
  | nil =>
      intro h w wf
      obtain ⟨h1, -⟩ := wf
      subst h1
      simp [pix]
  | cons r1 t1 ih =>
      intro h w wf
      obtain ⟨h1, hr1⟩ := wf
      subst h1
      have hlen1 : r1.length = w := hr1 r1 (List.mem_cons_self r1 t1)
      have hpix1 : pix (r1 :: t1) = r1 ++ pix t1 := by simp [pix]
      rw [hpix1, List.length_append, hlen1,
          ih t1.length w ⟨rfl, fun r hr => hr1 r (List.mem_cons_of_mem _ hr)⟩]
      simp only [List.length_cons]
      ring

/-! ### Pixel-sum normalization under the binary-mask invariant -/

theorem sum_eq_255_mul_countP (l : List Nat) (hb : ∀ v ∈ l, v = 0 ∨ v = 255) :
    l.sum = 255 * l.countP (fun v => v != 0) := by
  induction l with
  | nil => simp
  | cons a t ih =>
      have ha := hb a (List.mem_cons_self a t)
      have ih' := ih (fun v hv => hb v (List.mem_cons_of_mem a hv))
      rcases ha with rfl | rfl
      · simp [List.countP_cons, ih']
      · simp [List.countP_cons, ih']
        ring

theorem binary_pix {m : Mask} (hb : BinaryMask m) : ∀ v ∈ pix m, v = 0 ∨ v = 255 := by
  intro v hv
  rw [pix, List.mem_flatten] at hv
  obtain ⟨row, hrow, hv⟩ := hv
  exact hb row hrow v hv

theorem maskSum_binary {m : Mask} (hb : BinaryMask m) :
    maskSum m = 255 * (pix m).countP (fun v => v != 0) :=
  sum_eq_255_mul_countP _ (binary_pix hb)

theorem maskSum_div_255 {m : Mask} (hb : BinaryMask m) :
    (maskSum m : ℚ) / 255 = ((pix m).countP (fun v => v != 0) : ℚ) := by
  rw [maskSum_binary hb]
  push_cast
  exact mul_div_cancel_left₀ _ (by norm_num)

/-! ### countP comparison and symmetry helpers over zipped lists -/

theorem countP_zip_le_right (p : Nat → Nat → Bool) (q : Nat → Bool)
    (hpq : ∀ x y, p x y = true → q y = true) :
    ∀ (a b : List Nat), (a.zip b).countP (fun e => p e.1 e.2) ≤ b.countP q := by
  intro a
  induction a with
  | nil => intro b; simp
  | cons x t ih =>
      intro b
      cases b with
      | nil => simp
      | cons y s =>
          simp only [List.zip_cons_cons, List.countP_cons]
          have h1 := ih s
          have h2 : (if p x y = true then 1 else 0) ≤ (if q y = true then 1 else 0) := by
            by_cases hp : p x y
            · simp [hp, hpq x y hp]
            · simp [hp]
          omega

theorem countP_zip_le_left (p : Nat → Nat → Bool) (q : Nat → Bool)
    (hpq : ∀ x y, p x y = true → q x = true) :
    ∀ (a b : List Nat), (a.zip b).countP (fun e => p e.1 e.2) ≤ a.countP q := by
  intro a
  induction a with
  | nil => intro b; simp
  | cons x t ih =>
      intro b
      cases b with
      | nil => simp
      | cons y s =>
          simp only [List.zip_cons_cons, List.countP_cons]
          have h1 := ih s
          have h2 : (if p x y = true then 1 else 0) ≤ (if q x = true then 1 else 0) := by
            by_cases hp : p x y
            · simp [hp, hpq x y hp]
            · simp [hp]
          omega

theorem countP_zip_swap (p : Nat → Nat → Bool) :
    ∀ (a b : List Nat),
      (a.zip b).countP (fun e => p e.1 e.2) = (b.zip a).countP (fun e => p e.2 e.1) := by
  intro a
  induction a with
  | nil => intro b; cases b <;> simp
  | cons x t ih =>
      intro b
      cases b with
      | nil => simp
      | cons y s => simp [List.zip_cons_cons, List.countP_cons, ih s]

theorem maskSum_div_eq_specPos {m : Mask} {h w : Nat}
    (wf : MaskWf m h w) (hb : BinaryMask m) :
    (maskSum m : ℚ) / 255 = (specPos m h w : ℚ) := by
  rw [maskSum_div_255 hb, countP_pix1 (fun v => v != 0) m h w wf]
  rfl

theorem allZero_pix {m : Mask} (hz : AllZero m) : ∀ v ∈ pix m, v = 0 := by
  intro v hv
  rw [pix, List.mem_flatten] at hv
  obtain ⟨row, hrow, hv⟩ := hv
  exact hz row hrow v hv

theorem allZero_maskSum {m : Mask} (hz : AllZero m) : maskSum m = 0 :=
  List.sum_eq_zero (allZero_pix hz)

theorem allZero_orSum {m1 m2 : Mask} (h1 : AllZero m1) (h2 : AllZero m2) :
    orSum m1 m2 = 0 := by
  rw [orSum, List.countP_eq_zero]
  intro e he
  obtain ⟨a, b⟩ := e
  obtain ⟨ha, hb⟩ := List.of_mem_zip he
  simp [allZero_pix h1 a ha, allZero_pix h2 b hb]

theorem andSum_comm (m1 m2 : Mask) : andSum m1 m2 = andSum m2 m1 := by
  rw [andSum, countP_zip_swap (fun x y => x != 0 && y != 0) (pix m1) (pix m2), andSum]
  apply List.countP_congr
  intro e _
  simp [Bool.and_comm]

theorem orSum_comm (m1 m2 : Mask) : orSum m1 m2 = orSum m2 m1 := by
  rw [orSum, countP_zip_swap (fun x y => x != 0 || y != 0) (pix m1) (pix m2), orSum]
  apply List.countP_congr
  intro e _
  simp [Bool.or_comm]

/-! ### Claim theorems -/

/-- C1: for same-shape masks valued in {0,255}, `calculate_iou` returns the
count of positions where both masks are nonzero divided by the count of
positions where at least one is nonzero, and returns 0 when the union count
is 0. -/
theorem c1_iou_formula (h w : Nat) (m1 m2 : Mask)
    (wf1 : MaskWf m1 h w) (wf2 : MaskWf m2 h w)
    (_b1 : BinaryMask m1) (_b2 : BinaryMask m2) :
    (specOr m1 m2 h w ≠ 0 →
      calculate_iou m1 m2 = (specAnd m1 m2 h w : ℚ) / (specOr m1 m2 h w : ℚ)) ∧
    (specOr m1 m2 h w = 0 → calculate_iou m1 m2 = 0) := by
  have hand : andSum m1 m2 = specAnd m1 m2 h w :=
    countP_pix_zip (fun x y => x != 0 && y != 0) m1 h m2 w wf1 wf2
  have hor : orSum m1 m2 = specOr m1 m2 h w :=
    countP_pix_zip (fun x y => x != 0 || y != 0) m1 h m2 w wf1 wf2
  constructor
  · intro hne
    simp only [calculate_iou, hand, hor]
    rw [if_pos hne]
  · intro hz
    simp only [calculate_iou, hand, hor, hz]
    simp

/-- Witness for C1 at a concrete pair of 2×2 binary masks. -/
theorem c1_iou_formula_witness :
    MaskWf [[255, 0], [0, 255]] 2 2 ∧ MaskWf [[255, 255], [0, 0]] 2 2 ∧
    BinaryMask [[255, 0], [0, 255]] ∧ BinaryMask [[255, 255], [0, 0]] ∧
    ((specOr [[255, 0], [0, 255]] [[255, 255], [0, 0]] 2 2 ≠ 0 →
       calculate_iou [[255, 0], [0, 255]] [[255, 255], [0, 0]]
         = (specAnd [[255, 0], [0, 255]] [[255, 255], [0, 0]] 2 2 : ℚ)
           / (specOr [[255, 0], [0, 255]] [[255, 255], [0, 0]] 2 2 : ℚ)) ∧
     (specOr [[255, 0], [0, 255]] [[255, 255], [0, 0]] 2 2 = 0 →
       calculate_iou [[255, 0], [0, 255]] [[255, 255], [0, 0]] = 0)) :=
  ⟨by decide, by decide, by decide, by decide,
   c1_iou_formula 2 2 [[255, 0], [0, 255]] [[255, 255], [0, 0]]
     (by decide) (by decide) (by decide) (by decide)⟩

/-- C3: with `A` the ground-truth mask (first argument) and `B` the predicted
mask (second argument), both {0,255}-valued of the same shape,
`calculate_precision A B = |A ∧ B| / |B|` with 0 when `|B| = 0`, and
`calculate_recall A B = |A ∧ B| / |A|` with 0 when `|A| = 0`, where the
denominators are positive-pixel counts. -/
theorem c3_precision_recall (h w : Nat) (A B : Mask)
    (wfA : MaskWf A h w) (wfB : MaskWf B h w)
    (bA : BinaryMask A) (bB : BinaryMask B) :
    (specPos B h w ≠ 0 →
      calculate_precision A B = (specAnd A B h w : ℚ) / (specPos B h w : ℚ)) ∧
    (specPos B h w = 0 → calculate_precision A B = 0) ∧
    (specPos A h w ≠ 0 →
      calculate_recall A B = (specAnd A B h w : ℚ) / (specPos A h w : ℚ)) ∧
    (specPos A h w = 0 → calculate_recall A B = 0) := by
  have hand : andSum A B = specAnd A B h w :=
    countP_pix_zip (fun x y => x != 0 && y != 0) A h B w wfA wfB
  have hposA : (maskSum A : ℚ) / 255 = (specPos A h w : ℚ) := maskSum_div_eq_specPos wfA bA
  have hposB : (maskSum B : ℚ) / 255 = (specPos B h w : ℚ) := maskSum_div_eq_specPos wfB bB
  refine ⟨?_, ?_, ?_, ?_⟩
  · intro hne
    have hq : (specPos B h w : ℚ) ≠ 0 := Nat.cast_ne_zero.mpr hne
    simp only [calculate_precision, hand, hposB]
    rw [if_pos hq]
  · intro hz
    simp only [calculate_precision, hposB, hz]
    simp
  · intro hne
    have hq : (specPos A h w : ℚ) ≠ 0 := Nat.cast_ne_zero.mpr hne
    simp only [calculate_recall, hand, hposA]
    rw [if_pos hq]
  · intro hz
    simp only [calculate_recall, hposA, hz]
    simp

/-- Witness for C3 at a concrete pair of 2×2 binary masks. -/
theorem c3_precision_recall_witness :
    MaskWf [[255, 0], [0, 255]] 2 2 ∧ MaskWf [[255, 255], [0, 0]] 2 2 ∧
    BinaryMask [[255, 0], [0, 255]] ∧ BinaryMask [[255, 255], [0, 0]] ∧
    ((specPos [[255, 255], [0, 0]] 2 2 ≠ 0 →
       calculate_precision [[255, 0], [0, 255]] [[255, 255], [0, 0]]
         = (specAnd [[255, 0], [0, 255]] [[255, 255], [0, 0]] 2 2 : ℚ)
           / (specPos [[255, 255], [0, 0]] 2 2 : ℚ)) ∧
     (specPos [[255, 255], [0, 0]] 2 2 = 0 →
       calculate_precision [[255, 0], [0, 255]] [[255, 255], [0, 0]] = 0) ∧
     (specPos [[255, 0], [0, 255]] 2 2 ≠ 0 →
       calculate_recall [[255, 0], [0, 255]] [[255, 255], [0, 0]]
         = (specAnd [[255, 0], [0, 255]] [[255, 255], [0, 0]] 2 2 : ℚ)
           / (specPos [[255, 0], [0, 255]] 2 2 : ℚ)) ∧
     (specPos [[255, 0], [0, 255]] 2 2 = 0 →
       calculate_recall [[255, 0], [0, 255]] [[255, 255], [0, 0]] = 0)) :=
  ⟨by decide, by decide, by decide, by decide,
   c3_precision_recall 2 2 [[255, 0], [0, 255]] [[255, 255], [0, 0]]
     (by decide) (by decide) (by decide) (by decide)⟩

/-- C2: for same-shape {0,255}-valued masks, `calculate_dice_coefficient`
returns `2·|A ∧ B| / (|A| + |B|)` (denominators obtained as `sum/255`), and
when both masks are all-zero it returns exactly 1 while IoU, Precision,
Recall and F1 all return 0 in that same situation. -/
theorem c2_dice_empty_convention (h w : Nat) (m1 m2 : Mask)
    (wf1 : MaskWf m1 h w) (wf2 : MaskWf m2 h w)
    (b1 : BinaryMask m1) (b2 : BinaryMask m2) :
    (specPos m1 h w + specPos m2 h w ≠ 0 →
      calculate_dice_coefficient m1 m2
        = (2 * specAnd m1 m2 h w : ℚ) / ((specPos m1 h w : ℚ) + (specPos m2 h w : ℚ))) ∧
    (AllZero m1 → AllZero m2 →
      calculate_dice_coefficient m1 m2 = 1 ∧
      calculate_iou m1 m2 = 0 ∧
      calculate_precision m1 m2 = 0 ∧
      calculate_recall m1 m2 = 0 ∧
      calculate_f1 (calculate_precision m1 m2) (calculate_recall m1 m2) = 0) := by
  have hand : andSum m1 m2 = specAnd m1 m2 h w :=
    countP_pix_zip (fun x y => x != 0 && y != 0) m1 h m2 w wf1 wf2
  have hpos1 : (maskSum m1 : ℚ) / 255 = (specPos m1 h w : ℚ) := maskSum_div_eq_specPos wf1 b1
  have hpos2 : (maskSum m2 : ℚ) / 255 = (specPos m2 h w : ℚ) := maskSum_div_eq_specPos wf2 b2
  constructor
  · intro hne
    have hq : (specPos m1 h w : ℚ) + (specPos m2 h w : ℚ) ≠ 0 := by
      rw [← Nat.cast_add]
      exact Nat.cast_ne_zero.mpr hne
    simp only [calculate_dice_coefficient, hand, hpos1, hpos2]
    rw [if_pos hq]
  · intro hz1 hz2
    have hs1 : maskSum m1 = 0 := allZero_maskSum hz1
    have hs2 : maskSum m2 = 0 := allZero_maskSum hz2
    have hor : orSum m1 m2 = 0 := allZero_orSum hz1 hz2
    have hprec : calculate_precision m1 m2 = 0 := by
      simp [calculate_precision, hs2]
    have hrec : calculate_recall m1 m2 = 0 := by
      simp [calculate_recall, hs1]
    refine ⟨?_, ?_, hprec, hrec, ?_⟩
    · simp [calculate_dice_coefficient, hs1, hs2]
    · simp [calculate_iou, hor]
    · simp [calculate_f1, hprec, hrec]

/-- Witness for C2 at a concrete pair of all-zero 2×2 masks (the second
conjunct) and at a nonzero pair (handled through the hypotheses). -/
theorem c2_dice_empty_convention_witness :
    MaskWf [[0, 0], [0, 0]] 2 2 ∧ BinaryMask [[0, 0], [0, 0]] ∧
    ((specPos [[0, 0], [0, 0]] 2 2 + specPos [[0, 0], [0, 0]] 2 2 ≠ 0 →
      calculate_dice_coefficient [[0, 0], [0, 0]] [[0, 0], [0, 0]]
        = (2 * specAnd [[0, 0], [0, 0]] [[0, 0], [0, 0]] 2 2 : ℚ)
          / ((specPos [[0, 0], [0, 0]] 2 2 : ℚ) + (specPos [[0, 0], [0, 0]] 2 2 : ℚ))) ∧
     (AllZero [[0, 0], [0, 0]] → AllZero [[0, 0], [0, 0]] →
      calculate_dice_coefficient [[0, 0], [0, 0]] [[0, 0], [0, 0]] = 1 ∧
      calculate_iou [[0, 0], [0, 0]] [[0, 0], [0, 0]] = 0 ∧
      calculate_precision [[0, 0], [0, 0]] [[0, 0], [0, 0]] = 0 ∧
      calculate_recall [[0, 0], [0, 0]] [[0, 0], [0, 0]] = 0 ∧
      calculate_f1 (calculate_precision [[0, 0], [0, 0]] [[0, 0], [0, 0]])
        (calculate_recall [[0, 0], [0, 0]] [[0, 0], [0, 0]]) = 0)) :=
  ⟨by decide, by decide,
   c2_dice_empty_convention 2 2 [[0, 0], [0, 0]] [[0, 0], [0, 0]]
     (by decide) (by decide) (by decide) (by decide)⟩

/-- C8: `calculate_iou` and `calculate_dice_coefficient` are symmetric in
their two (same-shape) mask arguments. -/
theorem c8_iou_dice_symmetric (h w : Nat) (m1 m2 : Mask)
    (_wf1 : MaskWf m1 h w) (_wf2 : MaskWf m2 h w) :
    calculate_iou m1 m2 = calculate_iou m2 m1 ∧
    calculate_dice_coefficient m1 m2 = calculate_dice_coefficient m2 m1 := by
  constructor
  · simp only [calculate_iou]
    rw [andSum_comm m1 m2, orSum_comm m1 m2]
  · simp only [calculate_dice_coefficient]
    rw [andSum_comm m1 m2, add_comm ((maskSum m1 : ℚ) / 255) ((maskSum m2 : ℚ) / 255)]

/-- Witness for C8 at a concrete pair of 2×2 masks. -/
theorem c8_iou_dice_symmetric_witness :
    MaskWf [[255, 0], [0, 255]] 2 2 ∧ MaskWf [[255, 255], [0, 0]] 2 2 ∧
    (calculate_iou [[255, 0], [0, 255]] [[255, 255], [0, 0]]
       = calculate_iou [[255, 255], [0, 0]] [[255, 0], [0, 255]] ∧
     calculate_dice_coefficient [[255, 0], [0, 255]] [[255, 255], [0, 0]]
       = calculate_dice_coefficient [[255, 255], [0, 0]] [[255, 0], [0, 255]]) :=
  ⟨by decide, by decide,
   c8_iou_dice_symmetric 2 2 [[255, 0], [0, 255]] [[255, 255], [0, 0]]
     (by decide) (by decide)⟩

theorem shape_eq {m : Mask} {h w : Nat} (wf : MaskWf m h w) (hh : 0 < h) :
    shape0 m = h ∧ shape1 m = w := by
  obtain ⟨h1, hr⟩ := wf
  refine ⟨h1, ?_⟩
  cases m with
  | nil => simp at h1; omega
  | cons r t => exact hr r (List.mem_cons_self r t)

/-- C4: `calculate_pixel_accuracy` returns the count of agreeing grid cells
divided by `height · width` of the `pred` mask, and that denominator is
positive when the image shape is a pair of positive integers, so the
unguarded division never divides by zero. -/
theorem c4_pixel_accuracy_total (h w : Nat) (pred gt : Mask)
    (wfp : MaskWf pred h w) (wfg : MaskWf gt h w) (hh : 0 < h) (hw : 0 < w) :
    calculate_pixel_accuracy pred gt = (specEq pred gt h w : ℚ) / ((h : ℚ) * (w : ℚ)) ∧
    shape0 pred * shape1 pred = h * w ∧
    0 < shape0 pred * shape1 pred := by
  obtain ⟨hs0, hs1⟩ := shape_eq wfp hh
  have heq : eqSum pred gt = specEq pred gt h w :=
    countP_pix_zip (fun x y => x == y) pred h gt w wfp wfg
  refine ⟨?_, by rw [hs0, hs1], by rw [hs0, hs1]; positivity⟩
  simp only [calculate_pixel_accuracy, heq, hs0, hs1]
  push_cast
  ring

/-- Witness for C4 at a concrete pair of 2×2 masks. -/
theorem c4_pixel_accuracy_total_witness :
    MaskWf [[255, 0], [0, 255]] 2 2 ∧ MaskWf [[255, 255], [0, 0]] 2 2 ∧
    0 < 2 ∧
    (calculate_pixel_accuracy [[255, 0], [0, 255]] [[255, 255], [0, 0]]
       = (specEq [[255, 0], [0, 255]] [[255, 255], [0, 0]] 2 2 : ℚ) / ((2 : ℚ) * (2 : ℚ)) ∧
     shape0 [[255, 0], [0, 255]] * shape1 [[255, 0], [0, 255]] = 2 * 2 ∧
     0 < shape0 [[255, 0], [0, 255]] * shape1 [[255, 0], [0, 255]]) :=
  ⟨by decide, by decide, by decide,
   c4_pixel_accuracy_total 2 2 [[255, 0], [0, 255]] [[255, 255], [0, 0]]
     (by decide) (by decide) (by decide) (by decide)⟩

theorem zipWith_max_right_comm :
    ∀ (a b c : List Nat),
      List.zipWith max (List.zipWith max a b) c
        = List.zipWith max (List.zipWith max a c) b := by
  intro a
  induction a with
  | nil => intro b c; simp
  | cons x t ih =>
      intro b c
      cases b with
      | nil => simp
      | cons y s =>
          cases c with
          | nil => simp
          | cons z u =>
              simp only [List.zipWith_cons_cons]
              rw [ih s u, sup_right_comm]

theorem maxMask_right_comm :
    ∀ (a b c : Mask), maxMask (maxMask a b) c = maxMask (maxMask a c) b := by
  intro a
  induction a with
  | nil => intro b c; simp [maxMask]
  | cons x t ih =>
      intro b c
      cases b with
      | nil => simp [maxMask]
      | cons y s =>
          cases c with
          | nil => simp [maxMask]
          | cons z u =>
              have ih' := ih s u
              simp only [maxMask, List.zipWith_cons_cons] at ih' ⊢
              rw [ih', zipWith_max_right_comm x y z]

theorem foldl_maxMask_perm {ms1 ms2 : List Mask} (hp : List.Perm ms1 ms2) :
    ∀ init : Mask, ms1.foldl maxMask init = ms2.foldl maxMask init := by
  induction hp with
  | nil => intro _; rfl
  | cons x _ ih => intro init; simp only [List.foldl_cons]; exact ih _
  | swap x y l => intro init; simp only [List.foldl_cons]; rw [maxMask_right_comm]
  | trans _ _ ih1 ih2 => intro init; rw [ih1 init, ih2 init]

/-- C6: combining per-item masks by iterated pixel-wise maximum, as
`evaluate_metrics` does, is order-independent — every permutation of the
mask sequence yields the same combined mask — and the empty sequence
yields the all-zero combined mask of the image shape. -/
theorem c6_combine_order_independent (h w : Nat) (ms1 ms2 : List Mask)
    (hperm : List.Perm ms1 ms2) (_hwf : ∀ m ∈ ms1, MaskWf m h w) :
    combineMasks h w ms1 = combineMasks h w ms2 ∧
    AllZero (combineMasks h w []) ∧ MaskWf (combineMasks h w []) h w := by
  refine ⟨foldl_maxMask_perm hperm _, ?_, ?_⟩
  · intro row hrow v hv
    simp only [combineMasks, List.foldl_nil] at hrow
    rw [List.eq_of_mem_replicate hrow] at hv
    exact List.eq_of_mem_replicate hv
  · constructor
    · simp [combineMasks]
    · intro row hrow
      simp only [combineMasks, List.foldl_nil] at hrow
      rw [List.eq_of_mem_replicate hrow]
      simp

/-- Witness for C6 at a concrete permuted pair of 1×2 mask lists. -/
theorem c6_combine_order_independent_witness :
    List.Perm [[[255, 0]], [[0, 255]]] [[[0, 255]], [[255, 0]]] ∧
    (∀ m ∈ [[[255, 0]], [[0, 255]]], MaskWf m 1 2) ∧
    (combineMasks 1 2 [[[255, 0]], [[0, 255]]] = combineMasks 1 2 [[[0, 255]], [[255, 0]]] ∧
     AllZero (combineMasks 1 2 []) ∧ MaskWf (combineMasks 1 2 []) 1 2) :=
  ⟨by decide, by decide,
   c6_combine_order_independent 1 2 [[[255, 0]], [[0, 255]]] [[[0, 255]], [[255, 0]]]
     (by decide) (by decide)⟩

theorem binary_points_to_mask (points : List (Int × Int)) (s : Nat × Nat) :
    BinaryMask (points_to_mask points s) := by
  intro row hrow v hv
  simp only [points_to_mask, List.mem_map] at hrow
  obtain ⟨r, -, rfl⟩ := hrow
  simp only [List.mem_map] at hv
  obtain ⟨c, -, rfl⟩ := hv
  split
  · right; rfl
  · left; rfl

theorem exists_of_mem_zipWith {α β γ : Type _} {f : α → β → γ} :
    ∀ {a : List α} {b : List β} {c : γ}, c ∈ List.zipWith f a b →
      ∃ x, x ∈ a ∧ ∃ y, y ∈ b ∧ c = f x y := by
  intro a
  induction a with
  | nil => intro b c hc; simp at hc
  | cons x t ih =>
      intro b c hc
      cases b with
      | nil => simp at hc
      | cons y s =>
          rw [List.zipWith_cons_cons] at hc
          rcases List.mem_cons.mp hc with rfl | hc
          · exact ⟨x, List.mem_cons_self x t, y, List.mem_cons_self y s, rfl⟩
          · obtain ⟨x', hx', y', hy', rfl⟩ := ih hc
            exact ⟨x', List.mem_cons_of_mem _ hx', y', List.mem_cons_of_mem _ hy', rfl⟩

theorem binary_maxMask {m1 m2 : Mask} (b1 : BinaryMask m1) (b2 : BinaryMask m2) :
    BinaryMask (maxMask m1 m2) := by
  intro row hrow v hv
  obtain ⟨r1, hr1, r2, hr2, rfl⟩ := exists_of_mem_zipWith hrow
  obtain ⟨x, hx, y, hy, rfl⟩ := exists_of_mem_zipWith hv
  rcases b1 r1 hr1 x hx with rfl | rfl <;> rcases b2 r2 hr2 y hy with rfl | rfl <;> decide

theorem binary_foldl_maxMask :
    ∀ (ms : List Mask) (init : Mask), (∀ m ∈ ms, BinaryMask m) → BinaryMask init →
      BinaryMask (ms.foldl maxMask init) := by
  intro ms
  induction ms with
  | nil => intro init _ hb; exact hb
  | cons m t ih =>
      intro init hms hb
      rw [List.foldl_cons]
      exact ih _ (fun x hx => hms x (List.mem_cons_of_mem _ hx))
        (binary_maxMask hb (hms m (List.mem_cons_self m t)))

/-- C9: every mask the core handles is {0,255}-valued: `points_to_mask`
outputs masks whose cells are 0 or 255, and the pixel-wise-maximum
accumulation of `evaluate_metrics`, starting from any {0,255}-valued mask
(in particular all zeros), keeps every cell in {0,255} after each step. -/
theorem c9_binary_mask_invariant :
    (∀ (points : List (Int × Int)) (s : Nat × Nat),
       BinaryMask (points_to_mask points s)) ∧
    (∀ (ms : List Mask) (init : Mask),
       (∀ m ∈ ms, BinaryMask m) → BinaryMask init →
       BinaryMask (ms.foldl maxMask init)) :=
  ⟨binary_points_to_mask, binary_foldl_maxMask⟩

/-- Witness for C9 at a concrete polygon and a concrete accumulation. -/
theorem c9_binary_mask_invariant_witness :
    BinaryMask (points_to_mask [(0, 0), (2, 0), (0, 2)] (3, 3)) ∧
    (∀ m ∈ [[[0, 255]], [[255, 0]]], BinaryMask m) ∧ BinaryMask [[0, 0]] ∧
    BinaryMask (List.foldl maxMask [[0, 0]] [[[0, 255]], [[255, 0]]]) :=
  ⟨c9_binary_mask_invariant.1 [(0, 0), (2, 0), (0, 2)] (3, 3), by decide, by decide,
   c9_binary_mask_invariant.2 [[[0, 255]], [[255, 0]]] [[0, 0]] (by decide) (by decide)⟩

/-- C10: when the {0,255} convention is violated, the metrics are not
clamped to [0,1]: on the equal non-empty pair of {0,1}-valued masks
`[[1]], [[1]]`, `calculate_precision` returns 255, and `calculate_recall`
and `calculate_dice_coefficient` likewise return 255 > 1, because the
true-positive count uses pixel truthiness while the denominator divides
the raw pixel sum by 255. -/
theorem c10_non_binary_not_clamped :
    calculate_precision [[1]] [[1]] = 255 ∧
    calculate_recall [[1]] [[1]] = 255 ∧
    calculate_dice_coefficient [[1]] [[1]] = 255 ∧
    1 < calculate_precision [[1]] [[1]] ∧
    1 < calculate_recall [[1]] [[1]] ∧
    1 < calculate_dice_coefficient [[1]] [[1]] := by
  have h1 : andSum [[1]] [[1]] = 1 := by decide
  have h2 : maskSum [[1]] = 1 := by decide
  simp only [calculate_precision, calculate_recall, calculate_dice_coefficient, h1, h2]
  norm_num

theorem andSum_le_orSum (m1 m2 : Mask) : andSum m1 m2 ≤ orSum m1 m2 := by
  apply List.countP_mono_left
  intro e _ hp
  rw [Bool.and_eq_true] at hp
  rw [Bool.or_eq_true]
  exact Or.inl hp.1

theorem iou_range (m1 m2 : Mask) :
    0 ≤ calculate_iou m1 m2 ∧ calculate_iou m1 m2 ≤ 1 := by
  simp only [calculate_iou]
  split
  · rename_i hne
    have hpos : (0 : ℚ) < (orSum m1 m2 : ℚ) :=
      Nat.cast_pos.mpr (Nat.pos_of_ne_zero hne)
    refine ⟨by positivity, ?_⟩
    rw [div_le_one hpos]
    exact_mod_cast andSum_le_orSum m1 m2
  · norm_num

theorem precision_range (m1 m2 : Mask) (b2 : BinaryMask m2) :
    0 ≤ calculate_precision m1 m2 ∧ calculate_precision m1 m2 ≤ 1 := by
  have hsum := maskSum_div_255 b2
  have hle : andSum m1 m2 ≤ (pix m2).countP (fun v => v != 0) := by
    apply countP_zip_le_right (fun x y => x != 0 && y != 0) (fun v => v != 0)
    intro x y hp
    rw [Bool.and_eq_true] at hp
    exact hp.2
  simp only [calculate_precision, hsum]
  split
  · rename_i hne
    have hne' : (pix m2).countP (fun v => v != 0) ≠ 0 := Nat.cast_ne_zero.mp hne
    have hpos : (0 : ℚ) < ((pix m2).countP (fun v => v != 0) : ℚ) :=
      Nat.cast_pos.mpr (Nat.pos_of_ne_zero hne')
    refine ⟨by positivity, ?_⟩
    rw [div_le_one hpos]
    exact_mod_cast hle
  · norm_num

theorem recall_range (m1 m2 : Mask) (b1 : BinaryMask m1) :
    0 ≤ calculate_recall m1 m2 ∧ calculate_recall m1 m2 ≤ 1 := by
  have hsum := maskSum_div_255 b1
  have hle : andSum m1 m2 ≤ (pix m1).countP (fun v => v != 0) := by
    apply countP_zip_le_left (fun x y => x != 0 && y != 0) (fun v => v != 0)
    intro x y hp
    rw [Bool.and_eq_true] at hp
    exact hp.1
  simp only [calculate_recall, hsum]
  split
  · rename_i hne
    have hne' : (pix m1).countP (fun v => v != 0) ≠ 0 := Nat.cast_ne_zero.mp hne
    have hpos : (0 : ℚ) < ((pix m1).countP (fun v => v != 0) : ℚ) :=
      Nat.cast_pos.mpr (Nat.pos_of_ne_zero hne')
    refine ⟨by positivity, ?_⟩
    rw [div_le_one hpos]
    exact_mod_cast hle
  · norm_num

theorem f1_range {p r : ℚ} (hp0 : 0 ≤ p) (hp1 : p ≤ 1) (hr0 : 0 ≤ r) (hr1 : r ≤ 1) :
    0 ≤ calculate_f1 p r ∧ calculate_f1 p r ≤ 1 := by
  simp only [calculate_f1]
  split
  · rename_i hne
    have hsum : 0 < p + r := lt_of_le_of_ne (by positivity) (Ne.symm hne)
    refine ⟨by positivity, ?_⟩
    rw [div_le_one hsum]
    nlinarith
  · norm_num

theorem pixel_accuracy_range (h w : Nat) (pred gt : Mask)
    (wfp : MaskWf pred h w) (_wfg : MaskWf gt h w) :
    0 ≤ calculate_pixel_accuracy pred gt ∧ calculate_pixel_accuracy pred gt ≤ 1 := by
  simp only [calculate_pixel_accuracy]
  refine ⟨by positivity, ?_⟩
  rcases Nat.eq_zero_or_pos (shape0 pred * shape1 pred) with hz | hpos
  · rw [hz]
    simp
  · have hsp : 0 < shape0 pred := by
      rcases Nat.eq_zero_or_pos (shape0 pred) with h0 | h1
      · rw [h0] at hpos
        simp at hpos
      · exact h1
    have hs0h : shape0 pred = h := wfp.1
    have hh : 0 < h := by omega
    obtain ⟨hs0, hs1⟩ := shape_eq wfp hh
    rw [div_le_one (by exact_mod_cast hpos)]
    have hlen : (pix pred).length = h * w := pix_length pred h w wfp
    have hle : eqSum pred gt ≤ shape0 pred * shape1 pred := by
      rw [eqSum]
      calc ((pix pred).zip (pix gt)).countP (fun q => q.1 == q.2)
          ≤ ((pix pred).zip (pix gt)).length := List.countP_le_length _
        _ ≤ (pix pred).length := by rw [List.length_zip]; omega
        _ = shape0 pred * shape1 pred := by rw [hlen, hs0, hs1]
    exact_mod_cast hle

theorem dice_range (m1 m2 : Mask) (b1 : BinaryMask m1) (b2 : BinaryMask m2) :
    0 ≤ calculate_dice_coefficient m1 m2 ∧ calculate_dice_coefficient m1 m2 ≤ 1 := by
  have hs1 := maskSum_div_255 b1
  have hs2 := maskSum_div_255 b2
  have hle1 : andSum m1 m2 ≤ (pix m1).countP (fun v => v != 0) := by
    apply countP_zip_le_left (fun x y => x != 0 && y != 0) (fun v => v != 0)
    intro x y hp
    rw [Bool.and_eq_true] at hp
    exact hp.1
  have hle2 : andSum m1 m2 ≤ (pix m2).countP (fun v => v != 0) := by
    apply countP_zip_le_right (fun x y => x != 0 && y != 0) (fun v => v != 0)
    intro x y hp
    rw [Bool.and_eq_true] at hp
    exact hp.2
  simp only [calculate_dice_coefficient, hs1, hs2]
  split
  · rename_i hne
    have hpos : (0 : ℚ) < ((pix m1).countP (fun v => v != 0) : ℚ)
        + ((pix m2).countP (fun v => v != 0) : ℚ) :=
      lt_of_le_of_ne (by positivity) (Ne.symm hne)
    refine ⟨by positivity, ?_⟩
    rw [div_le_one hpos]
    have hn : 2 * andSum m1 m2
        ≤ (pix m1).countP (fun v => v != 0) + (pix m2).countP (fun v => v != 0) := by
      omega
    exact_mod_cast hn
  · norm_num

/-- C7: for well-formed binary mask inputs of a positive image shape, each
of the six metrics returned by the metric-computation tail of
`evaluate_metrics` — IoU, Precision, Recall, F1, Pixel Accuracy, Dice —
lies in the closed interval [0, 1]. -/
theorem c7_six_metrics_in_unit_interval (h w : Nat) (gt_mask pred_mask : Mask)
    (wf1 : MaskWf gt_mask h w) (wf2 : MaskWf pred_mask h w)
    (b1 : BinaryMask gt_mask) (b2 : BinaryMask pred_mask)
    (_hh : 0 < h) (_hw : 0 < w) :
    (0 ≤ (evaluate_metrics_core gt_mask pred_mask).1 ∧
      (evaluate_metrics_core gt_mask pred_mask).1 ≤ 1) ∧
    (0 ≤ (evaluate_metrics_core gt_mask pred_mask).2.1 ∧
      (evaluate_metrics_core gt_mask pred_mask).2.1 ≤ 1) ∧
    (0 ≤ (evaluate_metrics_core gt_mask pred_mask).2.2.1 ∧
      (evaluate_metrics_core gt_mask pred_mask).2.2.1 ≤ 1) ∧
    (0 ≤ (evaluate_metrics_core gt_mask pred_mask).2.2.2.1 ∧
      (evaluate_metrics_core gt_mask pred_mask).2.2.2.1 ≤ 1) ∧
    (0 ≤ (evaluate_metrics_core gt_mask pred_mask).2.2.2.2.1 ∧
      (evaluate_metrics_core gt_mask pred_mask).2.2.2.2.1 ≤ 1) ∧
    (0 ≤ (evaluate_metrics_core gt_mask pred_mask).2.2.2.2.2 ∧
      (evaluate_metrics_core gt_mask pred_mask).2.2.2.2.2 ≤ 1) := by
  have hprec := precision_range gt_mask pred_mask b2
  have hrec := recall_range gt_mask pred_mask b1
  simp only [evaluate_metrics_core]
  exact ⟨iou_range gt_mask pred_mask, hprec, hrec,
    f1_range hprec.1 hprec.2 hrec.1 hrec.2,
    pixel_accuracy_range h w pred_mask gt_mask wf2 wf1,
    dice_range gt_mask pred_mask b1 b2⟩

/-- Witness for C7 at a concrete pair of 2×2 binary masks. -/
theorem c7_six_metrics_in_unit_interval_witness :
    MaskWf [[255, 0], [0, 255]] 2 2 ∧ MaskWf [[255, 255], [0, 0]] 2 2 ∧
    BinaryMask [[255, 0], [0, 255]] ∧ BinaryMask [[255, 255], [0, 0]] ∧ 0 < 2 ∧
    ((0 ≤ (evaluate_metrics_core [[255, 0], [0, 255]] [[255, 255], [0, 0]]).1 ∧
       (evaluate_metrics_core [[255, 0], [0, 255]] [[255, 255], [0, 0]]).1 ≤ 1) ∧
     (0 ≤ (evaluate_metrics_core [[255, 0], [0, 255]] [[255, 255], [0, 0]]).2.1 ∧
       (evaluate_metrics_core [[255, 0], [0, 255]] [[255, 255], [0, 0]]).2.1 ≤ 1) ∧
     (0 ≤ (evaluate_metrics_core [[255, 0], [0, 255]] [[255, 255], [0, 0]]).2.2.1 ∧
       (evaluate_metrics_core [[255, 0], [0, 255]] [[255, 255], [0, 0]]).2.2.1 ≤ 1) ∧
     (0 ≤ (evaluate_metrics_core [[255, 0], [0, 255]] [[255, 255], [0, 0]]).2.2.2.1 ∧
       (evaluate_metrics_core [[255, 0], [0, 255]] [[255, 255], [0, 0]]).2.2.2.1 ≤ 1) ∧
     (0 ≤ (evaluate_metrics_core [[255, 0], [0, 255]] [[255, 255], [0, 0]]).2.2.2.2.1 ∧
       (evaluate_metrics_core [[255, 0], [0, 255]] [[255, 255], [0, 0]]).2.2.2.2.1 ≤ 1) ∧
     (0 ≤ (evaluate_metrics_core [[255, 0], [0, 255]] [[255, 255], [0, 0]]).2.2.2.2.2 ∧
       (evaluate_metrics_core [[255, 0], [0, 255]] [[255, 255], [0, 0]]).2.2.2.2.2 ≤ 1)) :=
  ⟨by decide, by decide, by decide, by decide, by decide,
   c7_six_metrics_in_unit_interval 2 2 [[255, 0], [0, 255]] [[255, 255], [0, 0]]
     (by decide) (by decide) (by decide) (by decide) (by decide) (by decide)⟩

/-! ### Degenerate polygons rasterize to the all-zero mask

For a polygon whose vertices are collinear, the even-odd ray test is false
at every point: the number of straddling edges around the closed vertex
cycle is even, and under collinearity every straddling edge crosses the
scanline at one and the same abscissa, so the right-of-`p` filter keeps
either all of them or none of them — an even count either way. -/

theorem countP_flip_chain {α : Type _} (f : α → Bool) :
    ∀ (l : List α) (a b : α),
      ((a :: l).zip (l ++ [b])).countP (fun e => f e.1 != f e.2) % 2
        = (if f a != f b then 1 else 0) % 2 := by
  intro l
  induction l with
  | nil =>
      intro a b
      simp [List.countP_singleton]
  | cons x xs ih =>
      intro a b
      rw [List.cons_append, List.zip_cons_cons, List.countP_cons]
      have hx := ih x b
      cases hfa : f a <;> cases hfx : f x <;> cases hfb : f b <;>
        simp [hfa, hfx, hfb] at hx ⊢ <;> omega

theorem countP_flip_rotate_even {α : Type _} (f : α → Bool) (l : List α) :
    (l.zip (l.rotate 1)).countP (fun e => f e.1 != f e.2) % 2 = 0 := by
  cases l with
  | nil => rfl
  | cons a t =>
      have hrot : (a :: t).rotate 1 = t ++ [a] := by
        rw [show (1 : ℕ) = 0 + 1 from rfl, List.rotate_cons_succ, List.rotate_zero]
      rw [hrot, countP_flip_chain f t a a]
      simp

theorem collinear_not_inside (pts : List (Int × Int)) (hc : CollinearPts pts)
    (p : ℚ × ℚ) : insideEO (ptsQ pts) p = false := by
  obtain ⟨A, B, C, hAB, hline⟩ := hc
  have hlineQ : ∀ q ∈ ptsQ pts, (A : ℚ) * q.1 + (B : ℚ) * q.2 = (C : ℚ) := by
    intro q hq
    rw [ptsQ, List.mem_map] at hq
    obtain ⟨z, hz, rfl⟩ := hq
    have hz' := hline z hz
    show (A : ℚ) * (z.1 : ℚ) + (B : ℚ) * (z.2 : ℚ) = (C : ℚ)
    exact_mod_cast hz'
  have heven : crossCount (ptsQ pts) p % 2 = 0 := by
    by_cases hA : (A : ℚ) = 0
    · have hAz : A = 0 := by exact_mod_cast hA
      have hBz : B ≠ 0 := by
        rcases hAB with hB0 | hB0
        · exact absurd hAz hB0
        · exact hB0
      have hB : (B : ℚ) ≠ 0 := Int.cast_ne_zero.mpr hBz
      have hy : ∀ q ∈ ptsQ pts, q.2 = (C : ℚ) / (B : ℚ) := by
        intro q hq
        have hl := hlineQ q hq
        rw [hA] at hl
        rw [eq_div_iff hB]
        linear_combination hl
      have hcc : crossCount (ptsQ pts) p = 0 := by
        rw [crossCount, polyEdges, List.countP_eq_zero]
        intro e he
        obtain ⟨a, b⟩ := e
        obtain ⟨ha, hb⟩ := List.of_mem_zip he
        have hb' : b ∈ ptsQ pts := List.mem_rotate.mp hb
        simp [edgeCrosses, yAbove, hy a ha, hy b hb']
      rw [hcc]
    · have hedge : ∀ e ∈ polyEdges (ptsQ pts),
          edgeCrosses p e.1 e.2
            = ((yAbove p e.1 != yAbove p e.2) &&
               decide (p.1 < ((C : ℚ) - (B : ℚ) * p.2) / (A : ℚ))) := by
        intro e he
        obtain ⟨a, b⟩ := e
        rw [polyEdges] at he
        obtain ⟨ha, hb⟩ := List.of_mem_zip he
        have hb' : b ∈ ptsQ pts := List.mem_rotate.mp hb
        by_cases hflip : (yAbove p a != yAbove p b) = true
        · have hyne : a.2 ≠ b.2 := by
            intro hEq
            rw [yAbove, yAbove, hEq] at hflip
            simp at hflip
          have hd : b.2 - a.2 ≠ 0 := sub_ne_zero.mpr (Ne.symm hyne)
          have hxa := hlineQ a ha
          have hxb := hlineQ b hb'
          have hXeq : (b.1 - a.1) * (p.2 - a.2) / (b.2 - a.2) + a.1
              = ((C : ℚ) - (B : ℚ) * p.2) / (A : ℚ) := by
            field_simp
            linear_combination ((b.2 : ℚ) - p.2) * hxa + (p.2 - a.2) * hxb
          rw [edgeCrosses, hXeq]
        · rw [edgeCrosses]
          simp only [Bool.not_eq_true] at hflip
          rw [hflip]
          simp
      by_cases hK : p.1 < ((C : ℚ) - (B : ℚ) * p.2) / (A : ℚ)
      · have hcnt : crossCount (ptsQ pts) p
            = (polyEdges (ptsQ pts)).countP
                (fun e => yAbove p e.1 != yAbove p e.2) := by
          rw [crossCount]
          refine List.countP_congr ?_
          intro e he
          rw [hedge e he]
          simp [hK]
        rw [hcnt]
        exact countP_flip_rotate_even (yAbove p) (ptsQ pts)
      · have hcnt : crossCount (ptsQ pts) p = 0 := by
          rw [crossCount, List.countP_eq_zero]
          intro e he
          rw [hedge e he]
          simp [hK]
        rw [hcnt]
  rw [insideEO, heven]
  rfl

/-- C5: for every target shape, the (spec-modelled) rasterizer applied to a
degenerate polygon — all vertices collinear, zero enclosed area — yields
an all-zero mask; and for every input point list, including
self-intersecting polygons, it returns a well-formed mask of the requested
shape without error. -/
theorem c5_degenerate_polygon_zero_mask (h w : Nat) (pts : List (Int × Int))
    (hc : CollinearPts pts) :
    AllZero (points_to_mask pts (h, w)) ∧
    ∀ pts2 : List (Int × Int), MaskWf (points_to_mask pts2 (h, w)) h w := by
  constructor
  · intro row hrow v hv
    simp only [points_to_mask, List.mem_map] at hrow
    obtain ⟨r, -, rfl⟩ := hrow
    simp only [List.mem_map] at hv
    obtain ⟨c, -, rfl⟩ := hv
    rw [collinear_not_inside pts hc]
    rfl
  · intro pts2
    refine ⟨?_, ?_⟩
    · simp only [points_to_mask]
      rw [List.length_map, List.length_range]
    · intro row hrow
      simp only [points_to_mask, List.mem_map] at hrow
      obtain ⟨r, -, rfl⟩ := hrow
      rw [List.length_map, List.length_range]

/-- Witness for C5 at the concrete collinear polygon [(0,0),(1,1),(2,2)]
on a 3×3 canvas, and a concrete self-intersecting bowtie polygon. -/
theorem c5_degenerate_polygon_zero_mask_witness :
    CollinearPts [(0, 0), (1, 1), (2, 2)] ∧
    AllZero (points_to_mask [(0, 0), (1, 1), (2, 2)] (3, 3)) ∧
    MaskWf (points_to_mask [(0, 0), (2, 2), (2, 0), (0, 2)] (3, 3)) 3 3 :=
  ⟨⟨1, -1, 0, Or.inl one_ne_zero, by decide⟩,
   (c5_degenerate_polygon_zero_mask 3 3 [(0, 0), (1, 1), (2, 2)]
      ⟨1, -1, 0, Or.inl one_ne_zero, by decide⟩).1,
   (c5_degenerate_polygon_zero_mask 3 3 [(0, 0), (1, 1), (2, 2)]
      ⟨1, -1, 0, Or.inl one_ne_zero, by decide⟩).2 [(0, 0), (2, 2), (2, 0), (0, 2)]⟩

end CalcMetrics
